import Mathlib

/-!
Verification of the stacked-review synchronization engine of gerritlab.

The definitions below are a shallow embedding of the Python sources under
gerritlab/ (utils.py, merge_request.py, pipeline.py, main.py).  Strings are
modelled as lists of characters so that the slicing and regular-expression
operations of the source can be reproduced exactly.  HTTP traffic against the
GitLab backend is modelled as an explicit event trace plus an explicit server
state (the set of open merge requests created by the user, which is what the
listing endpoint used by the tool returns).
-/

/-- Python strings are modelled as lists of characters. -/
abbrev Str := List Char

/-- The Python exceptions that the embedded code can raise. -/
inductive PyErr where
  | valueError
  | systemExit
  | typeError
deriving DecidableEq

/-- The ASCII whitespace characters matched by the regex class backslash-s
(and stripped by str.strip). -/
def isPySpace (c : Char) : Bool :=
  c = ' ' || c = '\t' || c = '\n' || c = '\r' || c = '\x0b' || c = '\x0c'

/-- Python str.strip(): drop whitespace from both ends. -/
def pyStrip (s : Str) : Str :=
  ((s.dropWhile isPySpace).reverse.dropWhile isPySpace).reverse

/-- startsWith pat s is true when pat is an initial segment of s. -/
def startsWith : Str → Str → Bool
  | [], _ => true
  | _ :: _, [] => false
  | p :: ps, c :: cs => p = c && startsWith ps cs

/-- The literal part of utils.change_id_re, which is
"Change-Id: (.+?)(backslash-s|dollar)". -/
def changeIdMarker : Str := "Change-Id: ".data

/-- Matching of the tail of utils.change_id_re at a fixed position: `t` is the
text that immediately follows "Change-Id: ".  The lazy group (.+?) takes one
non-newline character and then the shortest run of characters up to the first
whitespace character (or the end of the string, where the dollar alternative
applies).  Returns the captured group together with the total number of
characters consumed by the whole match (marker, group, and the whitespace
character when the first alternative applied). -/
def matchChangeIdAt (t : Str) : Option (Str × Nat) :=
  match t with
  | [] => none
  | c :: rest =>
    if c = '\n' then none
    else
      let grp := c :: rest.takeWhile (fun d => !(isPySpace d))
      some (grp, changeIdMarker.length + grp.length +
        (if grp.length < t.length then 1 else 0))

/-- re.search(change_id_re, msg): scan positions left to right and return the
first captured group. -/
def searchChangeId : Str → Option Str
  | [] => none
  | c :: rest =>
    if startsWith changeIdMarker (c :: rest) then
      match matchChangeIdAt ((c :: rest).drop changeIdMarker.length) with
      | some (grp, _) => some grp
      | none => searchChangeId rest
    else searchChangeId rest

/-- utils.get_change_id(msg, silent): the captured group of the first match,
a ValueError when there is no match and silent is not requested, and None when
silent is requested. -/
def get_change_id (msg : Str) (silent : Bool) : Except PyErr (Option Str) :=
  match searchChangeId msg with
  | some g => .ok (some g)
  | none => if silent then .ok none else .error .valueError

/-- One pass of re.sub(change_id_re, "", s): at each position, if the regex
matches there, drop the whole match and continue after it; otherwise keep the
character.  The fuel argument starts at the length of the string; every step
consumes at least one character, so the fuel never runs out. -/
def removeChangeIdAux : Nat → Str → Str
  | 0, s => s
  | _ + 1, [] => []
  | fuel + 1, c :: rest =>
    if startsWith changeIdMarker (c :: rest) then
      match matchChangeIdAt ((c :: rest).drop changeIdMarker.length) with
      | some (_, consumed) => removeChangeIdAux fuel ((c :: rest).drop consumed)
      | none => c :: removeChangeIdAux fuel rest
    else c :: removeChangeIdAux fuel rest

/-- re.sub(change_id_re, "", s), as used by utils.get_msg_title_description. -/
def removeChangeIds (s : Str) : Str := removeChangeIdAux s.length s

/-- Python msg.split("\n", 1): the part before the first newline, and the part
after it when a newline exists. -/
def splitFirstNl : Str → Str × Option Str
  | [] => ([], none)
  | c :: rest =>
    if c = '\n' then ([], some rest)
    else
      let p := splitFirstNl rest
      (c :: p.1, p.2)

/-- utils.get_msg_title_description(msg): "title, desc = tuple(msg.split(
"\n", 1))" raises ValueError when the message has no newline (the split yields
a 1-tuple); otherwise the description is the remainder with every match of
change_id_re removed. -/
def get_msg_title_description (msg : Str) : Except PyErr (Str × Str) :=
  match splitFirstNl msg with
  | (title, some rest) => .ok (title, removeChangeIds rest)
  | (_, none) => .error .valueError

/-- utils.get_remote_branch_name(local_branch, change_id) =
"{local_branch}-{change_id[1:5]}". -/
def get_remote_branch_name (local_branch : Str) (change_id : Str) : Str :=
  local_branch ++ [ '-' ] ++ (change_id.drop 1).take 4

/-- The regex class [0-9a-f]. -/
def isHexLower (c : Char) : Bool :=
  ('0' ≤ c && c ≤ '9') || ('a' ≤ c && c ≤ 'f')

/-- The filter of merge_request.get_all_merge_requests: re.match of
re.escape(branch) + "-I[0-9a-f]{40}$" against a source branch name.  re.match
anchors at the start; the dollar accepts the true end of the string or a
position just before a final newline. -/
def matchesMRPattern (branch src : Str) : Bool :=
  startsWith (branch ++ [ '-', 'I' ]) src &&
    (let t := src.drop (branch.length + 2)
     (t.length = 40 && t.all isHexLower) ||
       (t.length = 41 && (t.take 40).all isHexLower &&
         (t.drop 40).all (fun c => c = '\n')))

/-- A local commit as the engine sees it: its sha (abstracted to a number,
only compared for equality) and its full message. -/
structure CommitInfo where
  sha : Nat
  message : Str
deriving DecidableEq

/-- A merge request record as stored on the GitLab server: the fields of the
JSON payload that the engine reads (merge_request.MergeRequest._set_data). -/
structure MRData where
  iid : Nat
  source_branch : Str
  target_branch : Str
  title : Str
  description : Str
  sha : Option Nat
deriving DecidableEq

/-- merge_request.get_all_merge_requests(remote, branch): list the user's open
merge requests and keep those whose source branch matches
re.escape(branch) + "-I[0-9a-f]{40}$".  The server state models exactly the
listing returned by the state=opened, scope=created_by_me query. -/
def get_all_merge_requests (server : List MRData) (branch : Str) : List MRData :=
  server.filter (fun m => matchesMRPattern branch m.source_branch)

/-- Lookup in the directory dict built by main.get_commits_data
({mr.source_branch: mr ...}): for duplicate keys the later entry wins. -/
def lookupLastBySource (mrs : List MRData) (src : Str) : Option MRData :=
  (mrs.filter (fun m => m.source_branch = src)).getLast?

/-- main.Commit: one chain entry of the plan. -/
structure Entry where
  commit : CommitInfo
  source_branch : Str
  target_branch : Str
  mr : Option MRData
deriving DecidableEq

/-- The plan-building loop of main.get_commits_data, after the newest-first
commit list has been reversed.  `prev` is the previous commit of the iteration
(none for index 0).  The source branch comes from the commit's change id; the
target branch is the final branch at index 0 and the previous commit's derived
branch name afterwards.  A missing change id raises ValueError
(utils.get_change_id with silent not set). -/
def buildEntries (final : Str) : Option CommitInfo → List CommitInfo →
    Except PyErr (List Entry)
  | _, [] => .ok []
  | prev, c :: rest =>
    match searchChangeId c.message with
    | none => .error .valueError
    | some cid =>
      match (match prev with
        | none => Except.ok final
        | some p =>
          match searchChangeId p.message with
          | some g => Except.ok (get_remote_branch_name final g)
          | none => Except.error PyErr.valueError) with
      | .error e => .error e
      | .ok tgt =>
        match buildEntries final (some c) rest with
        | .error e => .error e
        | .ok rest' =>
          .ok ({ commit := c,
                 source_branch := get_remote_branch_name final cid,
                 target_branch := tgt, mr := none } :: rest')

/-- main.get_commits_data: reverse the newest-first commit list, build the
chain entries, raise SystemExit when no commits are pending, and link each
entry with the existing merge request (if any) for its source branch, via the
directory built from get_all_merge_requests. -/
def get_commits_data (server : List MRData) (commitsNewestFirst : List CommitInfo)
    (final : Str) : Except PyErr (List Entry) :=
  match commitsNewestFirst with
  | [] => .error .systemExit
  | _ :: _ =>
    match buildEntries final none commitsNewestFirst.reverse with
    | .error e => .error e
    | .ok entries =>
      let dir := get_all_merge_requests server final
      .ok (entries.map (fun e =>
        { e with mr := lookupLastBySource dir e.source_branch }))

/-- The client-side merge_request.MergeRequest object state used by
create_merge_requests: the cached fields plus the _needs_save flag. -/
structure MRObj where
  iid : Nat
  source_branch : Str
  target_branch : Str
  title : Str
  description : Str
  sha : Option Nat
  needs_save : Bool
deriving DecidableEq

/-- Constructing a MergeRequest from a server JSON payload
(MergeRequest(remote=..., json_data=...)): fields copied, _needs_save False. -/
def MRObj.ofData (m : MRData) : MRObj :=
  { iid := m.iid, source_branch := m.source_branch,
    target_branch := m.target_branch, title := m.title,
    description := m.description, sha := m.sha, needs_save := false }

/-- A chain entry after the create stage: every entry now holds a client
MergeRequest object; isNew records membership in the new_mrs list. -/
structure LinkedEntry where
  commit : CommitInfo
  source_branch : Str
  target_branch : Str
  obj : MRObj
  isNew : Bool
deriving DecidableEq

/-- The observable HTTP calls of one run, in program order. -/
inductive Ev where
  | createCall (source_branch target_branch title description : Str)
  | updateCall (iid : Nat) (source_branch target_branch title description : Str)
  | pushCall (refs : List (Nat × Str))
  | cancelCall (pid : Nat)
  | waitCall (iid : Nat)
  | mergeCall (iid : Nat)
deriving DecidableEq

/-- The next iid the server assigns (GitLab assigns fresh increasing iids). -/
def maxIid (server : List MRData) : Nat :=
  server.foldl (fun acc m => max acc m.iid) 0

/-- The "Create missing MRs" loop of main.create_merge_requests: for every
entry without a linked request, derive title and description from the commit
message, POST the creation (MergeRequest.create), and record the returned iid.
Returns the server state, the trace of creation calls, and on success the
entries each holding its MergeRequest object, flagged isNew when it was
created by this loop (main's new_mrs list). -/
def createStage : List Entry → List MRData →
    List MRData × List Ev × Except PyErr (List LinkedEntry)
  | [], server => (server, [], .ok [])
  | e :: rest, server =>
    match e.mr with
    | some m =>
      let (server', evs, r) := createStage rest server
      (server', evs, r.map (fun les =>
        { commit := e.commit, source_branch := e.source_branch,
          target_branch := e.target_branch, obj := MRObj.ofData m,
          isNew := false } :: les))
    | none =>
      match get_msg_title_description e.commit.message with
      | .error err => (server, [], .error err)
      | .ok td =>
        let iid := maxIid server + 1
        let rec0 : MRData :=
          { iid := iid, source_branch := e.source_branch,
            target_branch := e.target_branch, title := td.1,
            description := td.2, sha := none }
        let obj : MRObj :=
          { iid := iid, source_branch := e.source_branch,
            target_branch := e.target_branch, title := td.1,
            description := td.2, sha := none, needs_save := false }
        let (server', evs, r) := createStage rest (server ++ [rec0])
        (server',
         Ev.createCall e.source_branch e.target_branch td.1 td.2 :: evs,
         r.map (fun les =>
           { commit := e.commit, source_branch := e.source_branch,
             target_branch := e.target_branch, obj := obj,
             isNew := true } :: les))

/-- Decimal rendering of an iid, for the f-string "* !{iid}". -/
def natDecimal (n : Nat) : Str := (Nat.repr n).data

/-- Python "\n".join(lines). -/
def joinNl : List Str → Str
  | [] => []
  | [x] => x
  | x :: y :: xs => x ++ '\n' :: joinNl (y :: xs)

/-- main.generate_augmented_mr_description(commits_data, commit), with the
current entry identified by its position `i` (Python compares object
identity).  With at most one entry the plain title and description are
returned; otherwise a "Related MRs:" block is appended listing every entry in
reversed order (newest first), marking the current one, followed by the final
target branch. -/
def generate_augmented_mr_description (entries : List LinkedEntry) (i : Nat) :
    Except PyErr (Str × Str) :=
  match entries.get? i with
  | none => .error .valueError
  | some e => do
    let td ← get_msg_title_description e.commit.message
    if entries.length ≤ 1 then
      .ok td
    else
      let target := match entries.head? with
        | some h => h.target_branch
        | none => []
      let mrLines := entries.enum.reverse.map (fun p =>
        "* !".data ++ natDecimal p.2.obj.iid ++
          (if p.1 = i then " (This MR)".data else []))
      let extra := "Related MRs:".data ::
        (mrLines ++ ["* _".data ++ target ++ [ '_' ]])
      .ok (td.1, td.2 ++ "\n---\n".data ++ joinNl extra ++ [ '\n' ])

/-- MergeRequest.set_target_branch, set_title and set_desc applied in the
order of main.create_merge_requests: each setter assigns the field and raises
_needs_save only when the value differs (descriptions are compared after
str.strip()). -/
def applySetters (obj : MRObj) (tgt title desc : Str) : MRObj :=
  let o1 := if obj.target_branch = tgt then obj
    else { obj with target_branch := tgt, needs_save := true }
  let o2 := if o1.title = title then o1
    else { o1 with title := title, needs_save := true }
  if pyStrip o2.description = pyStrip desc then o2
  else { o2 with description := desc, needs_save := true }

/-- The PUT issued by MergeRequest.update (via save): the record with the
object's iid is overwritten with the object's current fields. -/
def serverUpdate (server : List MRData) (obj : MRObj) : List MRData :=
  server.map (fun m =>
    if m.iid = obj.iid then
      { m with source_branch := obj.source_branch,
               target_branch := obj.target_branch,
               title := obj.title, description := obj.description }
    else m)

/-- The outcome of the update loop for one entry: the entry with its object
after the setters and save, whether save issued a PUT, and whether the MR was
appended to updated_mrs (and its commit to commits_to_pipeline_cancel). -/
structure UpdOut where
  entry : LinkedEntry
  saved : Bool
  updated : Bool
deriving DecidableEq

/-- The second loop of main.create_merge_requests over the indexed entries:
recompute title, description (augmented) and target branch, apply the three
setters, save (PUT if anything changed), and flag the MR as updated when
"(mr.save() or mr._sha != c.commit.hexsha) and mr not in new_mrs". -/
def updateStageAux (all : List LinkedEntry) :
    List (Nat × LinkedEntry) → List MRData →
      List MRData × List Ev × Except PyErr (List UpdOut)
  | [], server => (server, [], .ok [])
  | (i, e) :: rest, server =>
    match generate_augmented_mr_description all i with
    | .error err => (server, [], .error err)
    | .ok td =>
      let obj := applySetters e.obj e.target_branch td.1 td.2
      let saved := obj.needs_save
      let server' := if saved then serverUpdate server obj else server
      let evs1 := if saved then
          [Ev.updateCall obj.iid obj.source_branch obj.target_branch
            obj.title obj.description]
        else []
      let updated := (saved || decide (obj.sha ≠ some e.commit.sha)) && !e.isNew
      let objDone := { obj with needs_save := false }
      let (server'', evs, r) := updateStageAux all rest server'
      (server'', evs1 ++ evs, r.map (fun outs =>
        { entry := { e with obj := objDone }, saved := saved,
          updated := updated } :: outs))

/-- The whole update loop (over all entries, with their indices). -/
def updateStage (les : List LinkedEntry) (server : List MRData) :
    List MRData × List Ev × Except PyErr (List UpdOut) :=
  updateStageAux les les.enum server

/-- The batched force push of "{sha}:refs/heads/{branch}" refspecs, together
with the backend's subsequent ingestion of the new head sha of each pushed
source branch (the convergence that MergeRequest.wait_until_stable polls for):
every server record whose source branch is pushed gets the pushed commit sha
(for duplicate refspecs of one branch the last wins). -/
def pushUpdate (server : List MRData) (les : List LinkedEntry) : List MRData :=
  server.map (fun m =>
    match (les.filter (fun e => e.source_branch = m.source_branch)).getLast? with
    | some e => { m with sha := some e.commit.sha }
    | none => m)

/-- The title-printing loop at the top of main.create_merge_requests: it calls
utils.get_msg_title_description on every commit message (and therefore raises
ValueError before any mutation when some message has no newline). -/
def screenTitles : List Entry → Except PyErr Unit
  | [] => .ok ()
  | e :: rest =>
    match get_msg_title_description e.commit.message with
    | .error err => .error err
    | .ok _ => screenTitles rest

/-- main.cancel_prev_pipelines(repo, commits).  The body first evaluates
pipeline.get_pipelines_by_change_id(repo); that function is defined as
get_pipelines_by_change_id(change_id, repo, status=None), so the single
positional argument leaves the required parameter repo unbound and Python
raises TypeError before any pipeline lookup or Pipeline.cancel call happens.
(Even with the arity fixed the callee returns a list while the caller invokes
.get(change_id, []) on the result as if it were a dict keyed by change id, and
generate_pipeline_status_str(None) would raise as well.)  The embedding
therefore raises TypeError without emitting any cancelCall event. -/
def cancel_prev_pipelines (_commits : List CommitInfo) : Except PyErr (List Ev) :=
  .error .typeError

instance {α : Type} [DecidableEq α] : DecidableEq (Except PyErr α) := fun a b =>
  match a, b with
  | .ok x, .ok y =>
    match decEq x y with
    | isTrue h => isTrue (by rw [h])
    | isFalse h => isFalse (fun hh => h (by cases hh; rfl))
  | .ok _, .error _ => isFalse (fun h => by cases h)
  | .error _, .ok _ => isFalse (fun h => by cases h)
  | .error e, .error f =>
    match decEq e f with
    | isTrue h => isTrue (by rw [h])
    | isFalse h => isFalse (fun hh => h (by cases hh; rfl))

/-- The result of one run of main.create_merge_requests: the trace of HTTP
calls issued, the server state when the run ended, the iids collected in
new_mrs and updated_mrs, and the Python outcome. -/
structure RunResult where
  trace : List Ev
  server : List MRData
  new_mrs : List Nat
  updated_mrs : List Nat
  result : Except PyErr Unit
deriving DecidableEq

/-- main.create_merge_requests(repo, remote, final_branch), in ci mode (the
interactive confirmation prompt is skipped; declining it would end the run
before any mutation).  Workflow, in program order: build the plan and link
existing MRs, print the commit titles, create the missing MRs, recompute and
save every MR's fields, push all source branches in one batched call, cancel
superseded pipelines, and wait for each MR to stabilize.  An exception leaves
the mutations already applied in place and aborts the remaining steps. -/
def create_merge_requests (server : List MRData)
    (commitsNewestFirst : List CommitInfo) (final : Str) : RunResult :=
  match get_commits_data server commitsNewestFirst final with
  | .error e => ⟨[], server, [], [], .error e⟩
  | .ok entries =>
    match screenTitles entries.reverse with
    | .error e => ⟨[], server, [], [], .error e⟩
    | .ok _ =>
      match createStage entries server with
      | (server1, evs1, .error e) => ⟨evs1, server1, [], [], .error e⟩
      | (server1, evs1, .ok les) =>
        let newIids := (les.filter (fun e => e.isNew)).map (fun e => e.obj.iid)
        match updateStage les server1 with
        | (server2, evs2, .error e) =>
          ⟨evs1 ++ evs2, server2, newIids, [], .error e⟩
        | (server2, evs2, .ok outs) =>
          let updIids := (outs.filter (fun o => o.updated)).map
            (fun o => o.entry.obj.iid)
          let refs := les.map (fun e => (e.commit.sha, e.source_branch))
          let server3 := pushUpdate server2 les
          let tr := evs1 ++ evs2 ++ [Ev.pushCall refs]
          match cancel_prev_pipelines
              ((outs.filter (fun o => o.updated)).map (fun o => o.entry.commit)) with
          | .error e => ⟨tr, server3, newIids, updIids, .error e⟩
          | .ok evsC =>
            ⟨tr ++ evsC ++ les.map (fun e => Ev.waitCall e.obj.iid),
             server3, newIids, updIids, .ok ()⟩

/-- The refreshed server view polled by MergeRequest.wait_until_stable: the
prepared_at timestamp and the head sha. -/
structure MRView where
  prepared_at : Option Str
  sha : Option Nat
deriving DecidableEq

/-- Python truthiness of the _prepared_at JSON field (null or a string). -/
def pyTruthyStr : Option Str → Bool
  | none => false
  | some [] => false
  | some (_ :: _) => true

/-- The stop condition of MergeRequest.wait_until_stable:
"if self._prepared_at and self._sha == commit.commit.hexsha". -/
def stableAt (v : MRView) (target : Nat) : Bool :=
  pyTruthyStr v.prepared_at && v.sha = some target

/-- The polling loop of MergeRequest.wait_until_stable over the stream of
refreshed server views: poll k, stop when the view is stable, otherwise sleep
0.5s (abstracted) and poll again.  The loop of the source has no bound; the
fuel argument only truncates the embedding, and exhausting it (result none)
means the source loop is still running after that many polls. -/
def wait_until_stable_loop (fetch : Nat → MRView) (target : Nat) :
    Nat → Nat → Option Nat
  | 0, _ => none
  | fuel + 1, k =>
    if stableAt (fetch k) target then some k
    else wait_until_stable_loop fetch target fuel (k + 1)

/-- MergeRequest.wait_until_stable, returning the index of the poll at which
it returned (none when it is still polling after `fuel` polls). -/
def wait_until_stable (fetch : Nat → MRView) (target : Nat) (fuel : Nat) :
    Option Nat :=
  wait_until_stable_loop fetch target fuel 0

/-- The retry loop of MergeRequest.merge over the stream of HTTP status codes
returned by the PUT on the merge endpoint: break when the status equals
requests.codes.ok (200), otherwise sleep 2s (abstracted) and retry.  The
source loop has no bound; the fuel argument only truncates the embedding. -/
def merge_loop (resp : Nat → Nat) : Nat → Nat → Option Nat
  | 0, _ => none
  | fuel + 1, k =>
    if resp k = 200 then some k
    else merge_loop resp fuel (k + 1)

/-- MergeRequest.merge, returning the index of the attempt that observed
status 200 (none when it is still retrying after `fuel` attempts). -/
def MergeRequest_merge (resp : Nat → Nat) (fuel : Nat) : Option Nat :=
  merge_loop resp fuel 0

/-- A merge request as seen by main.merge_merge_requests after the per-MR
refresh: the fields the merge walk reads.  The detailed_merge_status field
holds the refreshed value (MergeRequest.refresh overwrites the object with the
individually fetched record, because bulk listings return stale
mergeability). -/
structure MRState where
  iid : Nat
  source_branch : Str
  target_branch : Str
  title : Str
  description : Str
  detailed_merge_status : Str
deriving DecidableEq

/-- MergeRequest.mergeable: detailed_merge_status == "mergeable". -/
def MRState.mergeableB (m : MRState) : Bool :=
  m.detailed_merge_status = "mergeable".data

/-- The mrs_dict lookup of merge_request.get_merge_request_chain: the dict is
keyed by target branch ({mr.target_branch: mr ...}, later entries win), and
the chain walk asks for the MR whose target branch equals the current MR's
source branch. -/
def lookupByTarget (mrs : List MRState) (key : Str) : Option MRState :=
  (mrs.filter (fun m => m.target_branch = key)).getLast?

/-- get_merge_request_chain_inner: follow source_branch → target_branch
adjacency from a root.  The Python recursion has no depth guard and never
terminates on a cyclic adjacency (it dies with RecursionError); the fuel
argument models this: with fuel (number of MRs + 1) the walk completes exactly
when the Python recursion does, and none stands for RecursionError. -/
def chainInner (mrs : List MRState) : Nat → MRState → Option (List MRState)
  | 0, _ => none
  | fuel + 1, root =>
    match lookupByTarget mrs root.source_branch with
    | none => some [root]
    | some next => (chainInner mrs fuel next).map (fun c => root :: c)

/-- The loop of get_merge_request_chain over all roots. -/
def chainAll (mrs : List MRState) : List MRState → Option (List MRState)
  | [] => some []
  | r :: rs =>
    match chainInner mrs (mrs.length + 1) r with
    | none => none
    | some c =>
      match chainAll mrs rs with
      | none => none
      | some rest => some (c ++ rest)

/-- merge_request.get_merge_request_chain(mrs): empty input gives an empty
chain; otherwise walk from every root (an MR whose target branch is not any
MR's source branch). -/
def get_merge_request_chain (mrs : List MRState) : Option (List MRState) :=
  match mrs with
  | [] => some []
  | _ :: _ =>
    let source_branches := mrs.map (fun m => m.source_branch)
    let roots := mrs.filter
      (fun m => !(source_branches.any (fun s => s = m.target_branch)))
    chainAll mrs roots

/-- An entry of the merge path of main.merge_merge_requests: the local commit
together with the merge request located for it (none when no MR is open for
the commit's source branch). -/
structure MergeEntry where
  commit : CommitInfo
  mr : Option MRState
deriving DecidableEq

/-- main.merge_merge_requests, from the point where the plan has been built:
if any commit has no MR the function reports it and returns 0; otherwise build
the dependency chain, collect the maximal prefix of consecutively mergeable
MRs (the first non-mergeable MR breaks the scan), warn and return 0 when the
prefix is empty, and otherwise, for each MR of the prefix in order, retarget
it to the final branch (mr.update(target_branch=final_branch), a PUT of its
current fields with the new target) and then merge it.  Returns the trace and
the number of merged MRs; none models the RecursionError of a cyclic chain
walk. -/
def merge_merge_requests (entries : List MergeEntry) (final : Str) :
    Option (List Ev × Nat) :=
  if entries.any (fun e => e.mr.isNone) then some ([], 0)
  else
    let mrs := entries.filterMap (fun e => e.mr)
    match get_merge_request_chain mrs with
    | none => none
    | some chain =>
      let mergeables := chain.takeWhile (fun m => m.mergeableB)
      if mergeables.isEmpty then some ([], 0)
      else
        some (mergeables.flatMap (fun m =>
          [Ev.updateCall m.iid m.source_branch final m.title m.description,
           Ev.mergeCall m.iid]),
          mergeables.length)

/-- The property asked of a change id trailer by the claims: some position of
the message starts the literal "Change-Id: " followed by at least one
character that the regex dot can match (anything but a newline). -/
def HasChangeIdTrailer (msg : Str) : Prop :=
  ∃ pre c post, msg = pre ++ changeIdMarker ++ (c :: post) ∧ c ≠ '\n'

theorem changeIdMarker_eq :
    changeIdMarker = ['C','h','a','n','g','e','-','I','d',':',' '] := rfl

theorem startsWith_self_append : ∀ p t : Str, startsWith p (p ++ t) = true := by
  intro p
  induction p with
  | nil => intro t; rfl
  | cons a as ih =>
    intro t
    simp [startsWith, ih]

theorem startsWith_iff : ∀ p s : Str, startsWith p s = true ↔ ∃ t, s = p ++ t := by
  intro p
  induction p with
  | nil =>
    intro s
    simp [startsWith]
  | cons a as ih =>
    intro s
    cases s with
    | nil =>
      simp [startsWith]
    | cons c cs =>
      simp only [startsWith, Bool.and_eq_true, decide_eq_true_eq, ih,
        List.cons_append, List.cons.injEq]
      constructor
      · rintro ⟨rfl, t, rfl⟩
        exact ⟨t, rfl, rfl⟩
      · rintro ⟨t, rfl, rfl⟩
        exact ⟨rfl, t, rfl⟩

theorem mem_takeWhile_pred {p : Char → Bool} :
    ∀ (l : Str) (x : Char), x ∈ l.takeWhile p → p x = true := by
  intro l
  induction l with
  | nil => intro x h; simp [List.takeWhile] at h
  | cons a as ih =>
    intro x h
    by_cases ha : p a
    · rw [List.takeWhile_cons_of_pos ha] at h
      rcases List.mem_cons.mp h with rfl | h
      · exact ha
      · exact ih x h
    · rw [List.takeWhile_cons_of_neg ha] at h
      simp at h

theorem searchChangeId_decomp :
    ∀ (msg g : Str), searchChangeId msg = some g →
      g ≠ [] ∧ '\n' ∉ g ∧ ∃ pre post, msg = pre ++ changeIdMarker ++ g ++ post := by
  intro msg
  induction msg with
  | nil => intro g h; simp [searchChangeId] at h
  | cons a rest ih =>
    intro g h
    rw [searchChangeId] at h
    by_cases hs : startsWith changeIdMarker (a :: rest) = true
    · rw [if_pos hs] at h
      rcases (startsWith_iff _ _).mp hs with ⟨t, ht⟩
      have hdrop : (a :: rest).drop changeIdMarker.length = t := by
        rw [ht]; exact List.drop_left _ _
      rw [hdrop] at h
      cases t with
      | nil =>
        simp only [matchChangeIdAt] at h
        rcases ih g h with ⟨h1, h2, pre, post, h3⟩
        exact ⟨h1, h2, a :: pre, post, by simp [h3]⟩
      | cons c r =>
        by_cases hc : c = '\n'
        · rw [matchChangeIdAt, if_pos (by simp [hc])] at h
          rcases ih g h with ⟨h1, h2, pre, post, h3⟩
          exact ⟨h1, h2, a :: pre, post, by simp [h3]⟩
        · rw [matchChangeIdAt, if_neg (by simp [hc])] at h
          simp only [Option.some.injEq] at h
          refine ⟨by simp [← h], ?_, [], r.dropWhile (fun d => !(isPySpace d)), ?_⟩
          · rw [← h]
            intro hmem
            rcases List.mem_cons.mp hmem with rfl | hmem
            · exact hc rfl
            · have := mem_takeWhile_pred _ _ hmem
              simp [isPySpace] at this
          · rw [ht, ← h]
            simp [List.takeWhile_append_dropWhile]
    · rw [if_neg hs] at h
      rcases ih g h with ⟨h1, h2, pre, post, h3⟩
      exact ⟨h1, h2, a :: pre, post, by simp [h3]⟩

theorem searchChangeId_marker_cons (c : Char) (post : Str) (hc : c ≠ '\n') :
    searchChangeId (changeIdMarker ++ c :: post) =
      some (c :: post.takeWhile (fun d => !(isPySpace d))) := by
  have h1 : searchChangeId (changeIdMarker ++ c :: post) =
      (match matchChangeIdAt (c :: post) with
        | some (grp, _) => some grp
        | none => searchChangeId ("hange-Id: ".data ++ c :: post)) := rfl
  rw [h1]
  simp [matchChangeIdAt, hc]

theorem searchChangeId_cons_exists (a : Char) (rest : Str)
    (h : ∃ g, searchChangeId rest = some g) :
    ∃ g, searchChangeId (a :: rest) = some g := by
  rcases h with ⟨g, hg⟩
  by_cases hs : startsWith changeIdMarker (a :: rest) = true
  · rcases hm : matchChangeIdAt ((a :: rest).drop changeIdMarker.length) with
      _ | ⟨x, y⟩
    · refine ⟨g, ?_⟩
      rw [searchChangeId, if_pos hs, hm]
      exact hg
    · refine ⟨x, ?_⟩
      rw [searchChangeId, if_pos hs, hm]
  · refine ⟨g, ?_⟩
    rw [searchChangeId, if_neg hs]
    exact hg

theorem searchChangeId_of_trailer :
    ∀ (pre : Str) (c : Char) (post : Str), c ≠ '\n' →
      ∃ g, searchChangeId (pre ++ changeIdMarker ++ c :: post) = some g := by
  intro pre
  induction pre with
  | nil =>
    intro c post hc
    exact ⟨_, by rw [List.nil_append]; exact searchChangeId_marker_cons c post hc⟩
  | cons a pre' ih =>
    intro c post hc
    have hmsg : (a :: pre') ++ changeIdMarker ++ c :: post =
        a :: (pre' ++ changeIdMarker ++ c :: post) := by simp
    rw [hmsg]
    exact searchChangeId_cons_exists a _ (ih c post hc)

/-- Claim C9: utils.get_change_id (with silent not requested) succeeds and
returns the trailer token exactly when the commit message contains a Change-Id
trailer (the literal "Change-Id: " followed by a character the regex can
accept); when the trailer is absent it raises ValueError, so a commit without
a change id is a fatal input error.  The returned token is a non-empty
newline-free substring that immediately follows an occurrence of
"Change-Id: " in the message. -/
theorem spec_C9 (msg : Str) :
    ((∃ tok, get_change_id msg false = .ok (some tok)) ↔ HasChangeIdTrailer msg)
    ∧ (¬ HasChangeIdTrailer msg → get_change_id msg false = .error .valueError)
    ∧ (∀ tok, get_change_id msg false = .ok (some tok) →
        tok ≠ [] ∧ '\n' ∉ tok ∧
          ∃ pre post, msg = pre ++ changeIdMarker ++ tok ++ post) := by
  have hok : ∀ tok, get_change_id msg false = .ok (some tok) ↔
      searchChangeId msg = some tok := by
    intro tok
    unfold get_change_id
    cases h : searchChangeId msg with
    | none => simp
    | some g => simp
  refine ⟨⟨?_, ?_⟩, ?_, ?_⟩
  · rintro ⟨tok, htok⟩
    rcases searchChangeId_decomp msg tok ((hok tok).mp htok) with
      ⟨h1, h2, pre, post, h3⟩
    cases tok with
    | nil => exact absurd rfl h1
    | cons c rest =>
      exact ⟨pre, c, rest ++ post, by simp [h3],
        fun hc => h2 (hc ▸ List.mem_cons_self _ _)⟩
  · rintro ⟨pre, c, post, rfl, hc⟩
    rcases searchChangeId_of_trailer pre c post hc with ⟨g, hg⟩
    exact ⟨g, (hok g).mpr hg⟩
  · intro hno
    unfold get_change_id
    cases h : searchChangeId msg with
    | none => rfl
    | some g =>
      exfalso
      rcases searchChangeId_decomp msg g h with ⟨h1, h2, pre, post, h3⟩
      cases g with
      | nil => exact h1 rfl
      | cons c rest =>
        exact hno ⟨pre, c, rest ++ post, by simp [h3],
          fun hc => h2 (hc ▸ List.mem_cons_self _ _)⟩
  · intro tok htok
    exact searchChangeId_decomp msg tok ((hok tok).mp htok)

/-- Witness for C9 at a concrete commit message with a Change-Id trailer. -/
theorem spec_C9_witness :
    (∃ tok, get_change_id "Fix a bug.\n\nChange-Id: I12ab\n".data false =
      .ok (some tok))
    ∧ ("I12ab".data ≠ [] ∧ '\n' ∉ "I12ab".data ∧
        ∃ pre post, "Fix a bug.\n\nChange-Id: I12ab\n".data =
          pre ++ changeIdMarker ++ "I12ab".data ++ post) := by
  constructor
  · exact (spec_C9 "Fix a bug.\n\nChange-Id: I12ab\n".data).1.mpr
      ⟨"Fix a bug.\n\n".data, 'I', "12ab\n".data, rfl, by decide⟩
  · exact (spec_C9 "Fix a bug.\n\nChange-Id: I12ab\n".data).2.2
      "I12ab".data rfl

theorem buildEntries_ok (final : Str) :
    ∀ (cs : List CommitInfo) (prev : Option CommitInfo) (es : List Entry),
      buildEntries final prev cs = .ok es →
      es.map (fun e => e.commit) = cs
      ∧ (∀ e, es.head? = some e →
          (prev = none → e.target_branch = final)
          ∧ (∀ p, prev = some p → ∃ g, searchChangeId p.message = some g
              ∧ e.target_branch = get_remote_branch_name final g))
      ∧ (∀ i e1 e2, es.get? i = some e1 → es.get? (i + 1) = some e2 →
          e2.target_branch = e1.source_branch)
      ∧ (∀ e, e ∈ es → ∃ g, searchChangeId e.commit.message = some g
          ∧ e.source_branch = get_remote_branch_name final g ∧ e.mr = none) := by
  intro cs
  induction cs with
  | nil =>
    intro prev es h
    simp only [buildEntries] at h
    cases h
    refine ⟨rfl, ?_, ?_, ?_⟩
    · intro e he; cases he
    · intro i e1 e2 h1; cases h1
    · intro e he; cases he
  | cons c rest ih =>
    intro prev es h
    simp only [buildEntries] at h
    cases hg : searchChangeId c.message with
    | none =>
      rw [hg] at h
      cases h
    | some g =>
      rw [hg] at h
      cases prev with
      | none =>
        cases hrec : buildEntries final (some c) rest with
        | error e0 =>
          rw [hrec] at h
          cases h
        | ok rest' =>
          rw [hrec] at h
          cases h
          rcases ih (some c) rest' hrec with ⟨ihmap, ihhead, ihadj, ihmem⟩
          refine ⟨by simp [ihmap], ?_, ?_, ?_⟩
          · intro e he
            simp only [List.head?_cons, Option.some.injEq] at he
            subst he
            exact ⟨fun _ => rfl, fun p hp => by cases hp⟩
          · intro i e1 e2 h1 h2
            cases i with
            | zero =>
              simp only [List.get?_cons_zero, Option.some.injEq] at h1
              subst h1
              simp only [List.get?_cons_succ] at h2
              have hhead : rest'.head? = some e2 := by
                cases rest' with
                | nil => cases h2
                | cons x xs =>
                  simp only [List.get?_cons_zero, Option.some.injEq] at h2
                  simp [h2]
              rcases (ihhead e2 hhead).2 c rfl with ⟨g2, hg2, htgt2⟩
              rw [hg] at hg2
              cases hg2
              simpa using htgt2
            | succ j =>
              simp only [List.get?_cons_succ] at h1 h2
              exact ihadj j e1 e2 h1 h2
          · intro e he
            rcases List.mem_cons.mp he with rfl | he
            · exact ⟨g, hg, rfl, rfl⟩
            · exact ihmem e he
      | some p =>
        cases hgp : searchChangeId p.message with
        | none =>
          simp only [hgp] at h
          cases h
        | some gp =>
          simp only [hgp] at h
          cases hrec : buildEntries final (some c) rest with
          | error e0 =>
            rw [hrec] at h
            cases h
          | ok rest' =>
            rw [hrec] at h
            cases h
            rcases ih (some c) rest' hrec with ⟨ihmap, ihhead, ihadj, ihmem⟩
            refine ⟨by simp [ihmap], ?_, ?_, ?_⟩
            · intro e he
              simp only [List.head?_cons, Option.some.injEq] at he
              subst he
              constructor
              · intro hn; cases hn
              · intro p' hp'
                cases hp'
                exact ⟨gp, hgp, rfl⟩
            · intro i e1 e2 h1 h2
              cases i with
              | zero =>
                simp only [List.get?_cons_zero, Option.some.injEq] at h1
                subst h1
                simp only [List.get?_cons_succ] at h2
                have hhead : rest'.head? = some e2 := by
                  cases rest' with
                  | nil => cases h2
                  | cons x xs =>
                    simp only [List.get?_cons_zero, Option.some.injEq] at h2
                    simp [h2]
                rcases (ihhead e2 hhead).2 c rfl with ⟨g2, hg2, htgt2⟩
                rw [hg] at hg2
                cases hg2
                simpa using htgt2
              | succ j =>
                simp only [List.get?_cons_succ] at h1 h2
                exact ihadj j e1 e2 h1 h2
            · intro e he
              rcases List.mem_cons.mp he with rfl | he
              · exact ⟨g, hg, rfl, rfl⟩
              · exact ihmem e he

theorem get_commits_data_ok (server : List MRData)
    (commits : List CommitInfo) (final : Str) (es : List Entry)
    (h : get_commits_data server commits final = .ok es) :
    ∃ es0, buildEntries final none commits.reverse = .ok es0
      ∧ es = es0.map (fun e =>
          { e with
            mr := lookupLastBySource (get_all_merge_requests server final)
                    e.source_branch }) := by
  cases commits with
  | nil => cases h
  | cons c cs =>
    simp only [get_commits_data] at h
    cases hb : buildEntries final none ((c :: cs).reverse) with
    | error e0 => rw [hb] at h; cases h
    | ok es0 =>
      rw [hb] at h
      cases h
      exact ⟨es0, rfl, rfl⟩

/-- Claim C2: for every non-empty commit list, the plan built by
get_commits_data (after reversing the newest-first order) is a chain: the
plan is as long as the commit list and in oldest-first order, entry 0 targets
the final branch, every later entry targets the previous entry's source
branch, and every source branch is derived (get_remote_branch_name) from the
final branch and the commit's change id. -/
theorem spec_C2 (server : List MRData) (commits : List CommitInfo)
    (final : Str) (es : List Entry)
    (h : get_commits_data server commits final = .ok es) :
    es ≠ []
    ∧ es.map (fun e => e.commit) = commits.reverse
    ∧ (∀ e, es.head? = some e → e.target_branch = final)
    ∧ (∀ i e1 e2, es.get? i = some e1 → es.get? (i + 1) = some e2 →
        e2.target_branch = e1.source_branch)
    ∧ (∀ e, e ∈ es → ∃ cid, searchChangeId e.commit.message = some cid
        ∧ e.source_branch = get_remote_branch_name final cid) := by
  rcases get_commits_data_ok server commits final es h with ⟨es0, hb, rfl⟩
  rcases buildEntries_ok final commits.reverse none es0 hb with
    ⟨hmap, hhead, hadj, hmem⟩
  have hne : commits ≠ [] := by
    intro hc
    subst hc
    cases h
  refine ⟨?_, ?_, ?_, ?_, ?_⟩
  · intro he
    have : es0 = [] := by
      cases es0 with
      | nil => rfl
      | cons x xs => cases he
    subst this
    exact hne (by simpa using hmap.symm)
  · rw [List.map_map]
    exact hmap
  · intro e he
    rw [List.head?_map] at he
    cases h0 : es0.head? with
    | none => rw [h0] at he; cases he
    | some e0 =>
      rw [h0] at he
      cases he
      exact (hhead e0 h0).1 rfl
  · intro i e1 e2 h1 h2
    rw [List.get?_map] at h1 h2
    cases g1 : es0.get? i with
    | none => rw [g1] at h1; cases h1
    | some a1 =>
      cases g2 : es0.get? (i + 1) with
      | none => rw [g2] at h2; cases h2
      | some a2 =>
        rw [g1] at h1
        rw [g2] at h2
        cases h1
        cases h2
        exact hadj i a1 a2 g1 g2
  · intro e he
    rcases List.mem_map.mp he with ⟨a, ha, rfl⟩
    rcases hmem a ha with ⟨cid, hcid, hsrc, _⟩
    exact ⟨cid, hcid, hsrc⟩

/-- Witness for C2 at two concrete commits (newest first). -/
theorem spec_C2_witness :
    get_commits_data [] [⟨9, "B.\n\nChange-Id: Ibbbb\n".data⟩,
        ⟨7, "A.\n\nChange-Id: Iaaaa\n".data⟩] "main".data
      = .ok [⟨⟨7, "A.\n\nChange-Id: Iaaaa\n".data⟩, "main-aaaa".data,
              "main".data, none⟩,
             ⟨⟨9, "B.\n\nChange-Id: Ibbbb\n".data⟩, "main-bbbb".data,
              "main-aaaa".data, none⟩]
    ∧ ([⟨⟨7, "A.\n\nChange-Id: Iaaaa\n".data⟩, "main-aaaa".data,
          "main".data, none⟩,
        (⟨⟨9, "B.\n\nChange-Id: Ibbbb\n".data⟩, "main-bbbb".data,
          "main-aaaa".data, none⟩ : Entry)] ≠ []
      ∧ [⟨⟨7, "A.\n\nChange-Id: Iaaaa\n".data⟩, "main-aaaa".data,
            "main".data, none⟩,
          (⟨⟨9, "B.\n\nChange-Id: Ibbbb\n".data⟩, "main-bbbb".data,
            "main-aaaa".data, none⟩ : Entry)].map (fun e => e.commit)
        = [⟨9, "B.\n\nChange-Id: Ibbbb\n".data⟩,
           ⟨7, "A.\n\nChange-Id: Iaaaa\n".data⟩].reverse
      ∧ (∀ e, [⟨⟨7, "A.\n\nChange-Id: Iaaaa\n".data⟩, "main-aaaa".data,
            "main".data, none⟩,
          (⟨⟨9, "B.\n\nChange-Id: Ibbbb\n".data⟩, "main-bbbb".data,
            "main-aaaa".data, none⟩ : Entry)].head? = some e →
          e.target_branch = "main".data)
      ∧ (∀ i e1 e2, [⟨⟨7, "A.\n\nChange-Id: Iaaaa\n".data⟩, "main-aaaa".data,
            "main".data, none⟩,
          (⟨⟨9, "B.\n\nChange-Id: Ibbbb\n".data⟩, "main-bbbb".data,
            "main-aaaa".data, none⟩ : Entry)].get? i = some e1 →
          [⟨⟨7, "A.\n\nChange-Id: Iaaaa\n".data⟩, "main-aaaa".data,
            "main".data, none⟩,
          (⟨⟨9, "B.\n\nChange-Id: Ibbbb\n".data⟩, "main-bbbb".data,
            "main-aaaa".data, none⟩ : Entry)].get? (i + 1) = some e2 →
          e2.target_branch = e1.source_branch)
      ∧ (∀ e, e ∈ [⟨⟨7, "A.\n\nChange-Id: Iaaaa\n".data⟩, "main-aaaa".data,
            "main".data, none⟩,
          (⟨⟨9, "B.\n\nChange-Id: Ibbbb\n".data⟩, "main-bbbb".data,
            "main-aaaa".data, none⟩ : Entry)] →
          ∃ cid, searchChangeId e.commit.message = some cid
            ∧ e.source_branch = get_remote_branch_name "main".data cid)) :=
  ⟨rfl, spec_C2 [] [⟨9, "B.\n\nChange-Id: Ibbbb\n".data⟩,
      ⟨7, "A.\n\nChange-Id: Iaaaa\n".data⟩] "main".data _ rfl⟩

theorem splitFirstNl_no_nl : ∀ msg : Str, '\n' ∉ msg →
    splitFirstNl msg = (msg, none) := by
  intro msg
  induction msg with
  | nil => intro _; rfl
  | cons c rest ih =>
    intro h
    have hc : ¬(c = '\n') := fun hc => h (hc ▸ List.mem_cons_self _ _)
    have hr : '\n' ∉ rest := fun hr => h (List.mem_cons_of_mem _ hr)
    rw [splitFirstNl, if_neg hc, ih hr]

theorem splitFirstNl_nl : ∀ msg : Str, '\n' ∈ msg →
    splitFirstNl msg = (msg.takeWhile (fun c => c ≠ '\n'),
      some (msg.drop ((msg.takeWhile (fun c => c ≠ '\n')).length + 1))) := by
  intro msg
  induction msg with
  | nil => intro h; cases h
  | cons c rest ih =>
    intro h
    by_cases hc : c = '\n'
    · subst hc
      rw [splitFirstNl, if_pos rfl]
      simp
    · have hr : '\n' ∈ rest := by
        rcases List.mem_cons.mp h with h1 | h1
        · exact absurd h1.symm hc
        · exact h1
      have htw : (c :: rest).takeWhile (fun c => decide (c ≠ '\n')) =
          c :: rest.takeWhile (fun c => decide (c ≠ '\n')) :=
        List.takeWhile_cons_of_pos (by simp [hc])
      rw [splitFirstNl, if_neg hc, ih hr, htw]
      simp only [List.length_cons, List.drop_succ_cons]

theorem get_msg_no_nl (msg : Str) (h : '\n' ∉ msg) :
    get_msg_title_description msg = .error .valueError := by
  rw [get_msg_title_description, splitFirstNl_no_nl msg h]

theorem get_msg_nl (msg : Str) (h : '\n' ∈ msg) :
    get_msg_title_description msg =
      .ok (msg.takeWhile (fun c => c ≠ '\n'),
        removeChangeIds
          (msg.drop ((msg.takeWhile (fun c => c ≠ '\n')).length + 1))) := by
  rw [get_msg_title_description, splitFirstNl_nl msg h]

theorem buildEntries_error (final : Str) :
    ∀ (cs : List CommitInfo) (prev : Option CommitInfo) (e : PyErr),
      buildEntries final prev cs = .error e → e = .valueError := by
  intro cs
  induction cs with
  | nil =>
    intro prev e h
    simp only [buildEntries] at h
    cases h
  | cons c rest ih =>
    intro prev e h
    simp only [buildEntries] at h
    cases hg : searchChangeId c.message with
    | none =>
      rw [hg] at h
      cases h
      rfl
    | some g =>
      rw [hg] at h
      cases prev with
      | none =>
        cases hrec : buildEntries final (some c) rest with
        | error e0 =>
          rw [hrec] at h
          cases h
          exact ih (some c) _ hrec
        | ok rest' =>
          rw [hrec] at h
          cases h
      | some p =>
        cases hgp : searchChangeId p.message with
        | none =>
          simp only [hgp] at h
          cases h
          rfl
        | some gp =>
          simp only [hgp] at h
          cases hrec : buildEntries final (some c) rest with
          | error e0 =>
            rw [hrec] at h
            cases h
            exact ih (some c) _ hrec
          | ok rest' =>
            rw [hrec] at h
            cases h

theorem screenTitles_error :
    ∀ es : List Entry, (∃ e, e ∈ es ∧ '\n' ∉ e.commit.message) →
      screenTitles es = .error .valueError := by
  intro es
  induction es with
  | nil =>
    rintro ⟨e, he, _⟩
    cases he
  | cons a rest ih =>
    rintro ⟨e, he, hnl⟩
    rw [screenTitles]
    by_cases ha : '\n' ∈ a.commit.message
    · rw [get_msg_nl a.commit.message ha]
      rcases List.mem_cons.mp he with rfl | he
      · exact absurd ha hnl
      · exact ih ⟨e, he, hnl⟩
    · rw [get_msg_no_nl a.commit.message ha]

theorem get_commits_data_map_commits (server : List MRData)
    (commits : List CommitInfo) (final : Str) (es : List Entry)
    (h : get_commits_data server commits final = .ok es) :
    es.map (fun e => e.commit) = commits.reverse := by
  rcases get_commits_data_ok server commits final es h with ⟨es0, hb, rfl⟩
  rcases buildEntries_ok final commits.reverse none es0 hb with ⟨hmap, _, _, _⟩
  rw [List.map_map]
  exact hmap

/-- Claim C10: utils.get_msg_title_description is partial at the engine's
boundary: on a message containing a newline it returns the first line as the
title and the remainder (with the Change-Id matches removed) as the
description; on a single-line message the tuple unpacking raises ValueError.
Consequently a run of create_merge_requests whose commit list contains a
single-line message aborts with ValueError before issuing any call or
mutating the server, so every commit processed past that point has a
multi-line message. -/
theorem spec_C10 :
    (∀ msg : Str, ((∃ r, get_msg_title_description msg = .ok r) ↔ '\n' ∈ msg)
      ∧ ('\n' ∉ msg → get_msg_title_description msg = .error .valueError)
      ∧ (∀ t d, get_msg_title_description msg = .ok (t, d) →
          t = msg.takeWhile (fun c => c ≠ '\n')
          ∧ d = removeChangeIds
              (msg.drop ((msg.takeWhile (fun c => c ≠ '\n')).length + 1))))
    ∧ (∀ (server : List MRData) (commits : List CommitInfo) (final : Str)
        (c : CommitInfo), c ∈ commits → '\n' ∉ c.message →
        (create_merge_requests server commits final).result = .error .valueError
        ∧ (create_merge_requests server commits final).trace = []
        ∧ (create_merge_requests server commits final).server = server) := by
  constructor
  · intro msg
    refine ⟨⟨?_, ?_⟩, ?_, ?_⟩
    · rintro ⟨r, hr⟩
      by_contra hnl
      rw [get_msg_no_nl msg hnl] at hr
      cases hr
    · intro hmem
      exact ⟨_, get_msg_nl msg hmem⟩
    · intro hnl
      exact get_msg_no_nl msg hnl
    · intro t d h
      by_cases hmem : '\n' ∈ msg
      · rw [get_msg_nl msg hmem] at h
        cases h
        exact ⟨rfl, rfl⟩
      · rw [get_msg_no_nl msg hmem] at h
        cases h
  · intro server commits final c hc hnl
    cases hgcd : get_commits_data server commits final with
    | error e =>
      have he : e = .valueError := by
        cases commits with
        | nil => cases hc
        | cons a cs =>
          simp only [get_commits_data] at hgcd
          cases hb : buildEntries final none ((a :: cs).reverse) with
          | error e0 =>
            rw [hb] at hgcd
            cases hgcd
            exact buildEntries_error final _ none _ hb
          | ok es0 =>
            rw [hb] at hgcd
            cases hgcd
      subst he
      have hrun : create_merge_requests server commits final =
          ⟨[], server, [], [], .error .valueError⟩ := by
        simp only [create_merge_requests, hgcd]
      rw [hrun]
      exact ⟨rfl, rfl, rfl⟩
    | ok entries =>
      have hmapc := get_commits_data_map_commits server commits final
        entries hgcd
      have hcrev : c ∈ commits.reverse := List.mem_reverse.mpr hc
      rw [← hmapc] at hcrev
      rcases List.mem_map.mp hcrev with ⟨e, he, hec⟩
      have hscreen : screenTitles entries.reverse = .error .valueError :=
        screenTitles_error entries.reverse
          ⟨e, List.mem_reverse.mpr he, by rw [hec]; exact hnl⟩
      have hrun : create_merge_requests server commits final =
          ⟨[], server, [], [], .error .valueError⟩ := by
        simp only [create_merge_requests, hgcd, hscreen]
      rw [hrun]
      exact ⟨rfl, rfl, rfl⟩

/-- Witness for C10: a run on a single-line commit message aborts with
ValueError without issuing any call. -/
theorem spec_C10_witness :
    (create_merge_requests [] [⟨5, "oneliner Change-Id: Iaaaa".data⟩]
        "main".data).result = .error .valueError
    ∧ (create_merge_requests [] [⟨5, "oneliner Change-Id: Iaaaa".data⟩]
        "main".data).trace = []
    ∧ (create_merge_requests [] [⟨5, "oneliner Change-Id: Iaaaa".data⟩]
        "main".data).server = [] :=
  spec_C10.2 [] [⟨5, "oneliner Change-Id: Iaaaa".data⟩] "main".data
    ⟨5, "oneliner Change-Id: Iaaaa".data⟩ (List.mem_cons_self _ _) (by decide)

theorem merge_loop_some (resp : Nat → Nat) :
    ∀ fuel k n, merge_loop resp fuel k = some n →
      k ≤ n ∧ resp n = 200 ∧ ∀ m, k ≤ m → m < n → resp m ≠ 200 := by
  intro fuel
  induction fuel with
  | zero => intro k n h; cases h
  | succ f ih =>
    intro k n h
    rw [merge_loop] at h
    by_cases hk : resp k = 200
    · rw [if_pos hk] at h
      cases h
      exact ⟨le_refl _, hk, fun m h1 h2 => absurd h1 (by omega)⟩
    · rw [if_neg hk] at h
      rcases ih (k + 1) n h with ⟨h1, h2, h3⟩
      refine ⟨by omega, h2, ?_⟩
      intro m hm1 hm2
      by_cases hmk : m = k
      · subst hmk; exact hk
      · exact h3 m (by omega) hm2

theorem merge_loop_none (resp : Nat → Nat) (h : ∀ m, resp m ≠ 200) :
    ∀ fuel k, merge_loop resp fuel k = none := by
  intro fuel
  induction fuel with
  | zero => intro k; rfl
  | succ f ih =>
    intro k
    rw [merge_loop, if_neg (h k)]
    exact ih (k + 1)

theorem merge_loop_complete (resp : Nat → Nat) :
    ∀ n, resp n = 200 → (∀ m, m < n → resp m ≠ 200) →
      ∀ fuel k, k ≤ n → n - k < fuel → merge_loop resp fuel k = some n := by
  intro n hn hmin fuel
  induction fuel with
  | zero => intro k _ h; omega
  | succ f ih =>
    intro k hk hf
    by_cases hkn : k = n
    · subst hkn
      rw [merge_loop, if_pos hn]
    · rw [merge_loop, if_neg (hmin k (by omega))]
      exact ih (k + 1) (by omega) (by omega)

/-- Claim C8: the retry loop of MergeRequest.merge never completes while the
PUT returns a non-success status (requests.codes.ok, 200): any run that
returns did so at the first attempt that observed 200, every earlier attempt
observed a non-200 status, a response stream that never returns 200 makes the
loop run beyond any bound (there is no retry cap), and as soon as a 200 is
observed the loop returns at exactly that attempt. -/
theorem spec_C8 (resp : Nat → Nat) :
    (∀ fuel n, MergeRequest_merge resp fuel = some n →
        resp n = 200 ∧ ∀ m, m < n → resp m ≠ 200)
    ∧ ((∀ m, resp m ≠ 200) → ∀ fuel, MergeRequest_merge resp fuel = none)
    ∧ (∀ n, resp n = 200 → (∀ m, m < n → resp m ≠ 200) →
        ∀ fuel, n < fuel → MergeRequest_merge resp fuel = some n) := by
  refine ⟨?_, ?_, ?_⟩
  · intro fuel n h
    rcases merge_loop_some resp fuel 0 n h with ⟨_, h2, h3⟩
    exact ⟨h2, fun m hm => h3 m (Nat.zero_le _) hm⟩
  · intro h fuel
    exact merge_loop_none resp h fuel 0
  · intro n hn hmin fuel hf
    exact merge_loop_complete resp n hn hmin fuel 0 (Nat.zero_le _) (by omega)

/-- Witness for C8: a stream that fails three times and then succeeds makes
the merge loop return at attempt 3. -/
theorem spec_C8_witness :
    (fun m => if m < 3 then 409 else 200) 3 = 200
    ∧ MergeRequest_merge (fun m => if m < 3 then 409 else 200) 10 = some 3 :=
  ⟨by decide,
   (spec_C8 (fun m => if m < 3 then 409 else 200)).2.2 3 (by decide)
     (by decide) 10 (by decide)⟩

theorem wait_loop_some (fetch : Nat → MRView) (target : Nat) :
    ∀ fuel k n, wait_until_stable_loop fetch target fuel k = some n →
      k ≤ n ∧ stableAt (fetch n) target = true
        ∧ ∀ m, k ≤ m → m < n → stableAt (fetch m) target = false := by
  intro fuel
  induction fuel with
  | zero => intro k n h; cases h
  | succ f ih =>
    intro k n h
    rw [wait_until_stable_loop] at h
    by_cases hk : stableAt (fetch k) target = true
    · rw [if_pos hk] at h
      cases h
      exact ⟨le_refl _, hk, fun m h1 h2 => absurd h1 (by omega)⟩
    · rw [if_neg hk] at h
      rcases ih (k + 1) n h with ⟨h1, h2, h3⟩
      refine ⟨by omega, h2, ?_⟩
      intro m hm1 hm2
      by_cases hmk : m = k
      · subst hmk
        exact Bool.not_eq_true _ ▸ (by simpa using hk)
      · exact h3 m (by omega) hm2

theorem wait_loop_none (fetch : Nat → MRView) (target : Nat)
    (h : ∀ m, stableAt (fetch m) target = false) :
    ∀ fuel k, wait_until_stable_loop fetch target fuel k = none := by
  intro fuel
  induction fuel with
  | zero => intro k; rfl
  | succ f ih =>
    intro k
    rw [wait_until_stable_loop, if_neg (by rw [h k]; exact Bool.false_ne_true)]
    exact ih (k + 1)

theorem takeWhile_get_pred {α : Type} (p : α → Bool) :
    ∀ (l : List α) i m, l.get? i = some m → i < (l.takeWhile p).length →
      p m = true := by
  intro l
  induction l with
  | nil => intro i m h; cases h
  | cons a t ih =>
    intro i m h hi
    by_cases ha : p a = true
    · rw [List.takeWhile_cons_of_pos ha] at hi
      cases i with
      | zero =>
        cases h
        exact ha
      | succ j =>
        simp only [List.get?_cons_succ] at h
        simp only [List.length_cons] at hi
        exact ih j m h (by omega)
    · rw [List.takeWhile_cons_of_neg ha] at hi
      cases hi
  
theorem takeWhile_stop_pred {α : Type} (p : α → Bool) :
    ∀ (l : List α) m, l.get? (l.takeWhile p).length = some m →
      p m = false := by
  intro l
  induction l with
  | nil => intro m h; cases h
  | cons a t ih =>
    intro m h
    by_cases ha : p a = true
    · rw [List.takeWhile_cons_of_pos ha] at h
      simp only [List.length_cons, List.get?_cons_succ] at h
      exact ih m h
    · rw [List.takeWhile_cons_of_neg ha] at h
      simp only [List.length_nil, List.get?_cons_zero] at h
      cases h
      exact Bool.eq_false_iff.mpr ha

theorem takeWhile_eq_take_len {α : Type} (p : α → Bool) :
    ∀ l : List α, l.takeWhile p = l.take (l.takeWhile p).length := by
  intro l
  induction l with
  | nil => rfl
  | cons a t ih =>
    by_cases ha : p a = true
    · rw [List.takeWhile_cons_of_pos ha]
      simp only [List.length_cons, List.take_succ_cons]
      rw [← ih]
    · rw [List.takeWhile_cons_of_neg ha]
      rfl

/-- Claim C4: given a plan whose entries all have merge requests, with the
dependency chain built by get_merge_request_chain and each request carrying
its refreshed mergeability, merge_merge_requests merges exactly the maximal
prefix of consecutively mergeable requests in root-to-tip order: the returned
count is the length of that prefix, every request before the count is
mergeable, the request at the count (when one exists) is not, the trace is
exactly, for each merged request in chain order, a retargeting update to the
final branch followed by its merge call, and no request at or after the first
non-mergeable one is touched by any call (count zero when the root is not
mergeable; the source prints a warning in that case). -/
theorem spec_C4 (entries : List MergeEntry) (final : Str) (chain : List MRState)
    (hall : ∀ e, e ∈ entries → e.mr ≠ none)
    (hchain : get_merge_request_chain (entries.filterMap (fun e => e.mr))
      = some chain)
    (hnodup : (chain.map (fun m => m.iid)).Nodup) :
    ∃ tr n, merge_merge_requests entries final = some (tr, n)
      ∧ n = (chain.takeWhile (fun m => m.mergeableB)).length
      ∧ (∀ i m, chain.get? i = some m → i < n → m.mergeableB = true)
      ∧ (∀ m, chain.get? n = some m → m.mergeableB = false)
      ∧ tr = (chain.take n).flatMap (fun m =>
          [Ev.updateCall m.iid m.source_branch final m.title m.description,
           Ev.mergeCall m.iid])
      ∧ (∀ m, m ∈ chain.drop n → ∀ ev, ev ∈ tr →
          (∀ s t ti d, ev ≠ Ev.updateCall m.iid s t ti d)
          ∧ ev ≠ Ev.mergeCall m.iid) := by
  have hany : entries.any (fun e => e.mr.isNone) = false := by
    rw [List.any_eq_false]
    intro e he
    simp only [Option.isNone_iff_eq_none]
    exact hall e he
  have hiid : ∀ m m', m ∈ chain.drop
        (chain.takeWhile (fun m => m.mergeableB)).length →
      m' ∈ chain.take (chain.takeWhile (fun m => m.mergeableB)).length →
      m'.iid ≠ m.iid := by
    intro m m' hm hm'
    set n := (chain.takeWhile (fun m => m.mergeableB)).length with hn
    have hsplit : chain.map (fun m => m.iid) =
        (chain.take n).map (fun m => m.iid)
          ++ (chain.drop n).map (fun m => m.iid) := by
      rw [← List.map_append, List.take_append_drop]
    rw [hsplit] at hnodup
    have hdisj := (List.nodup_append.mp hnodup).2.2
    intro heq
    exact hdisj (List.mem_map_of_mem _ hm') (heq ▸ List.mem_map_of_mem _ hm)
  have hrun : merge_merge_requests entries final =
      (if (chain.takeWhile (fun m => m.mergeableB)).isEmpty then some ([], 0)
       else some ((chain.takeWhile (fun m => m.mergeableB)).flatMap (fun m =>
          [Ev.updateCall m.iid m.source_branch final m.title m.description,
           Ev.mergeCall m.iid]),
         (chain.takeWhile (fun m => m.mergeableB)).length)) := by
    simp only [merge_merge_requests, hany, Bool.false_eq_true, if_false,
      hchain]
  by_cases hemp : (chain.takeWhile (fun m => m.mergeableB)).isEmpty = true
  · have hempn : (chain.takeWhile (fun m => m.mergeableB)).length = 0 := by
      rw [List.isEmpty_iff] at hemp
      rw [hemp]
      rfl
    refine ⟨[], 0, ?_, hempn.symm, ?_, ?_, ?_, ?_⟩
    · rw [hrun, if_pos hemp]
    · intro i m _ hi
      omega
    · intro m hm
      have := takeWhile_stop_pred (fun m => m.mergeableB) chain m
      rw [hempn] at this
      exact this hm
    · rw [List.take_zero]
      rfl
    · intro m _ ev hev
      cases hev
  · refine ⟨(chain.takeWhile (fun m => m.mergeableB)).flatMap (fun m =>
        [Ev.updateCall m.iid m.source_branch final m.title m.description,
         Ev.mergeCall m.iid]),
      (chain.takeWhile (fun m => m.mergeableB)).length, ?_, rfl, ?_, ?_, ?_, ?_⟩
    · rw [hrun, if_neg hemp]
    · intro i m hm hi
      exact takeWhile_get_pred (fun m => m.mergeableB) chain i m hm hi
    · intro m hm
      exact takeWhile_stop_pred (fun m => m.mergeableB) chain m hm
    · rw [← takeWhile_eq_take_len]
    · intro m hm ev hev
      rw [takeWhile_eq_take_len (fun m => m.mergeableB) chain] at hev
      rcases List.mem_flatMap.mp hev with ⟨m', hm', hev'⟩
      have hne : m'.iid ≠ m.iid := hiid m m' hm hm'
      rcases List.mem_cons.mp hev' with rfl | hev''
      · refine ⟨?_, ?_⟩
        · intro s t ti d h
          injection h with h1 h2 h3 h4 h5
          exact hne h1
        · intro h
          exact Ev.noConfusion h
      · rcases List.mem_cons.mp hev'' with rfl | hev3
        · refine ⟨?_, ?_⟩
          · intro s t ti d h
            exact Ev.noConfusion h
          · intro h
            injection h with h1
            exact hne h1
        · cases hev3

/-- Witness for C4: a 4-request chain whose first three requests are
mergeable and whose fourth is not merges exactly 3 requests. -/
theorem spec_C4_witness :
    ∃ tr, merge_merge_requests
      [⟨⟨1, []⟩, some ⟨1, "b1".data, "main".data, "t1".data, "d".data,
          "mergeable".data⟩⟩,
       ⟨⟨2, []⟩, some ⟨2, "b2".data, "b1".data, "t2".data, "d".data,
          "mergeable".data⟩⟩,
       ⟨⟨3, []⟩, some ⟨3, "b3".data, "b2".data, "t3".data, "d".data,
          "mergeable".data⟩⟩,
       ⟨⟨4, []⟩, some ⟨4, "b4".data, "b3".data, "t4".data, "d".data,
          "checking".data⟩⟩] "main".data = some (tr, 3) := by
  obtain ⟨tr, n, hrun, hn, -, -, -, -⟩ :=
    spec_C4
      [⟨⟨1, []⟩, some ⟨1, "b1".data, "main".data, "t1".data, "d".data,
          "mergeable".data⟩⟩,
       ⟨⟨2, []⟩, some ⟨2, "b2".data, "b1".data, "t2".data, "d".data,
          "mergeable".data⟩⟩,
       ⟨⟨3, []⟩, some ⟨3, "b3".data, "b2".data, "t3".data, "d".data,
          "mergeable".data⟩⟩,
       ⟨⟨4, []⟩, some ⟨4, "b4".data, "b3".data, "t4".data, "d".data,
          "checking".data⟩⟩] "main".data
      [⟨1, "b1".data, "main".data, "t1".data, "d".data, "mergeable".data⟩,
       ⟨2, "b2".data, "b1".data, "t2".data, "d".data, "mergeable".data⟩,
       ⟨3, "b3".data, "b2".data, "t3".data, "d".data, "mergeable".data⟩,
       ⟨4, "b4".data, "b3".data, "t4".data, "d".data, "checking".data⟩]
      (by decide) rfl (by decide)
  subst hn
  exact ⟨tr, by rw [hrun]; rfl⟩

theorem applySetters_fields (obj : MRObj) (tgt title desc : Str) :
    (applySetters obj tgt title desc).iid = obj.iid
    ∧ (applySetters obj tgt title desc).source_branch = obj.source_branch
    ∧ (applySetters obj tgt title desc).sha = obj.sha
    ∧ (applySetters obj tgt title desc).needs_save =
        (obj.needs_save || decide (obj.target_branch ≠ tgt)
          || decide (obj.title ≠ title)
          || decide (pyStrip obj.description ≠ pyStrip desc)) := by
  simp only [applySetters]
  split_ifs with h1 h2 h3 h4 h5 h6 h7 <;>
    simp_all

theorem get?_enumFrom {α : Type} :
    ∀ (l : List α) (s j : Nat),
      (List.enumFrom s l).get? j = (l.get? j).map (fun a => (s + j, a)) := by
  intro l
  induction l with
  | nil => intro s j; cases j <;> rfl
  | cons a t ih =>
    intro s j
    cases j with
    | zero => simp [List.enumFrom]
    | succ i =>
      simp only [List.enumFrom, List.get?_cons_succ]
      rw [ih (s + 1) i]
      congr 1
      funext x
      simp only [Prod.mk.injEq, and_true]
      omega

theorem get?_enum {α : Type} (l : List α) (j : Nat) :
    l.enum.get? j = (l.get? j).map (fun a => (j, a)) := by
  rw [List.enum]
  rw [get?_enumFrom l 0 j]
  simp

theorem updateStageAux_spec (all : List LinkedEntry) :
    ∀ (pairs : List (Nat × LinkedEntry)) (server server' : List MRData)
      (evs : List Ev) (r : Except PyErr (List UpdOut)),
      updateStageAux all pairs server = (server', evs, r) →
      (∀ ev, ev ∈ evs → ∃ i s t ti d, ev = Ev.updateCall i s t ti d)
      ∧ (∀ outs, r = .ok outs →
          outs.length = pairs.length
          ∧ (∀ j i e o, pairs.get? j = some (i, e) → outs.get? j = some o →
              ∃ t d, generate_augmented_mr_description all i = .ok (t, d)
                ∧ o.saved = (applySetters e.obj e.target_branch t d).needs_save
                ∧ o.updated = ((o.saved
                    || decide ((applySetters e.obj e.target_branch t d).sha
                        ≠ some e.commit.sha)) && !e.isNew)
                ∧ o.entry.obj =
                    { applySetters e.obj e.target_branch t d with
                      needs_save := false }
                ∧ o.entry.isNew = e.isNew
                ∧ (o.saved = true →
                    Ev.updateCall (applySetters e.obj e.target_branch t d).iid
                      (applySetters e.obj e.target_branch t d).source_branch
                      (applySetters e.obj e.target_branch t d).target_branch
                      (applySetters e.obj e.target_branch t d).title
                      (applySetters e.obj e.target_branch t d).description
                      ∈ evs))) := by
  intro pairs
  induction pairs with
  | nil =>
    intro server server' evs r h
    simp only [updateStageAux] at h
    cases h
    constructor
    · intro ev hev
      cases hev
    · intro outs h0
      cases h0
      constructor
      · rfl
      · intro j i e o hj _
        cases hj
  | cons p rest ih =>
    obtain ⟨i, e⟩ := p
    intro server server' evs r h
    simp only [updateStageAux] at h
    cases hgen : generate_augmented_mr_description all i with
    | error err =>
      rw [hgen] at h
      cases h
      constructor
      · intro ev hev
        cases hev
      · intro outs h0
        cases h0
    | ok td =>
      simp only [hgen] at h
      set objA := applySetters e.obj e.target_branch td.1 td.2 with hobjA
      set sx : List MRData :=
        if objA.needs_save = true then serverUpdate server objA else server
        with hsx
      rcases haux : updateStageAux all rest sx with ⟨s2, evs2, r2⟩
      rw [haux] at h
      cases h
      rcases ih sx s2 evs2 r2 haux with ⟨ihev, ihok⟩
      constructor
      · intro ev hev
        rcases List.mem_append.mp hev with hl | hr
        · by_cases hs : objA.needs_save = true
          · rw [if_pos hs] at hl
            rcases List.mem_cons.mp hl with rfl | h0
            · exact ⟨objA.iid, objA.source_branch, objA.target_branch,
                objA.title, objA.description, rfl⟩
            · cases h0
          · rw [if_neg hs] at hl
            cases hl
        · exact ihev ev hr
      · intro outs h0
        cases r2 with
        | error err2 => cases h0
        | ok outs2 =>
          simp only [Except.map, Except.ok.injEq] at h0
          subst h0
          rcases ihok outs2 rfl with ⟨ihlen, ihidx⟩
          constructor
          · simp [ihlen]
          · intro j i0 e0 o hj ho
            cases j with
            | zero =>
              simp only [List.get?_cons_zero, Option.some.injEq] at hj ho
              cases hj
              subst ho
              refine ⟨td.1, td.2, hgen, rfl, rfl, rfl, rfl, ?_⟩
              intro hs
              refine List.mem_append_left _ ?_
              rw [if_pos hs]
              exact List.mem_cons_self _ _
            | succ k =>
              simp only [List.get?_cons_succ] at hj ho
              rcases ihidx k i0 e0 o hj ho with
                ⟨t0, d0, hg0, h1, h2, h3, h4, h5⟩
              exact ⟨t0, d0, hg0, h1, h2, h3, h4,
                fun hs => List.mem_append_right _ (h5 hs)⟩

set_option maxHeartbeats 1000000 in
/-- Claim C5: in the update loop of create_merge_requests, a pre-existing
merge request (one not created in this run, "mr not in new_mrs") is appended
to updated_mrs — reported as updated and its commit made eligible for pipeline
cancellation — if and only if the reconciliation changed one of its fields
(target branch, title, or description up to str.strip; the source branch is
never touched, requests being joined by source branch, so that disjunct of the
claim is vacuous) or its recorded head sha differs from the commit sha that
the batched push will set.  The hypothesis that _needs_save starts false holds
for every object the run handles: both the constructor and create leave it
false and save resets it. -/
theorem spec_C5 (les : List LinkedEntry) (server server' : List MRData)
    (evs : List Ev) (outs : List UpdOut)
    (hns : ∀ e, e ∈ les → e.obj.needs_save = false)
    (h : updateStage les server = (server', evs, .ok outs)) :
    ∀ j e o, les.get? j = some e → outs.get? j = some o → e.isNew = false →
      ∃ t d, generate_augmented_mr_description les j = .ok (t, d)
        ∧ (o.updated = true ↔
            (e.obj.target_branch ≠ e.target_branch
             ∨ e.obj.title ≠ t
             ∨ pyStrip e.obj.description ≠ pyStrip d
             ∨ e.obj.sha ≠ some e.commit.sha)) := by
  intro j e o hj ho hnew
  rcases updateStageAux_spec les les.enum server server' evs (.ok outs) h
    with ⟨_, hok⟩
  rcases hok outs rfl with ⟨_, hidx⟩
  have hpj : les.enum.get? j = some (j, e) := by
    rw [get?_enum, hj]
    rfl
  rcases hidx j j e o hpj ho with ⟨t, d, hg, hsaved, hupd, _, _, _⟩
  rcases applySetters_fields e.obj e.target_branch t d with
    ⟨_, _, hsha, hnsv⟩
  have hmem : e ∈ les := by
    have := List.get?_mem hj
    exact this
  refine ⟨t, d, hg, ?_⟩
  rw [hupd, hsaved, hnsv, hsha, hns e hmem, hnew]
  simp only [Bool.false_or, Bool.not_false, Bool.and_true, Bool.or_eq_true,
    decide_eq_true_eq]
  tauto

/-- Witness for C5: a linked pre-existing request whose recorded sha differs
from the commit sha is flagged updated. -/
theorem spec_C5_witness :
    ∃ t d, generate_augmented_mr_description
        [⟨⟨6, "T.\n\nChange-Id: Iaaaa\n".data⟩, "main-aaaa".data, "main".data,
          ⟨1, "main-aaaa".data, "main".data, "T.".data, "\n".data, some 5,
            false⟩, false⟩] 0 = .ok (t, d)
      ∧ (((⟨⟨⟨6, "T.\n\nChange-Id: Iaaaa\n".data⟩, "main-aaaa".data,
            "main".data,
            ⟨1, "main-aaaa".data, "main".data, "T.".data, "\n".data, some 5,
              false⟩, false⟩, false, true⟩ : UpdOut).updated = true ↔
          ((⟨1, "main-aaaa".data, "main".data, "T.".data, "\n".data, some 5,
              false⟩ : MRObj).target_branch ≠ "main".data
           ∨ (⟨1, "main-aaaa".data, "main".data, "T.".data, "\n".data, some 5,
              false⟩ : MRObj).title ≠ t
           ∨ pyStrip (⟨1, "main-aaaa".data, "main".data, "T.".data, "\n".data,
              some 5, false⟩ : MRObj).description ≠ pyStrip d
           ∨ (⟨1, "main-aaaa".data, "main".data, "T.".data, "\n".data, some 5,
              false⟩ : MRObj).sha ≠ some 6))) :=
  spec_C5
    [⟨⟨6, "T.\n\nChange-Id: Iaaaa\n".data⟩, "main-aaaa".data, "main".data,
      ⟨1, "main-aaaa".data, "main".data, "T.".data, "\n".data, some 5, false⟩,
      false⟩] [] [] []
    [⟨⟨⟨6, "T.\n\nChange-Id: Iaaaa\n".data⟩, "main-aaaa".data, "main".data,
      ⟨1, "main-aaaa".data, "main".data, "T.".data, "\n".data, some 5, false⟩,
      false⟩, false, true⟩]
    (by decide) rfl 0
    ⟨⟨6, "T.\n\nChange-Id: Iaaaa\n".data⟩, "main-aaaa".data, "main".data,
      ⟨1, "main-aaaa".data, "main".data, "T.".data, "\n".data, some 5, false⟩,
      false⟩
    ⟨⟨⟨6, "T.\n\nChange-Id: Iaaaa\n".data⟩, "main-aaaa".data, "main".data,
      ⟨1, "main-aaaa".data, "main".data, "T.".data, "\n".data, some 5, false⟩,
      false⟩, false, true⟩
    rfl rfl rfl

theorem createStage_spec :
    ∀ (entries : List Entry) (server server' : List MRData) (evs : List Ev)
      (r : Except PyErr (List LinkedEntry)),
      createStage entries server = (server', evs, r) →
      (∀ ev, ev ∈ evs → ∃ s t ti d, ev = Ev.createCall s t ti d)
      ∧ (∀ les, r = .ok les →
          ∀ e, e ∈ entries → e.mr = none →
            ∃ t d, Ev.createCall e.source_branch e.target_branch t d ∈ evs) := by
  intro entries
  induction entries with
  | nil =>
    intro server server' evs r h
    simp only [createStage] at h
    cases h
    constructor
    · intro ev hev
      cases hev
    · intro les _ e he
      cases he
  | cons e rest ih =>
    intro server server' evs r h
    simp only [createStage] at h
    cases hmr : e.mr with
    | some m =>
      simp only [hmr] at h
      rcases haux : createStage rest server with ⟨s2, evs2, r2⟩
      rw [haux] at h
      cases h
      rcases ih server s2 evs2 r2 haux with ⟨ihev, ihok⟩
      constructor
      · exact ihev
      · intro les hles e0 he0 hmr0
        cases r2 with
        | error err => cases hles
        | ok les2 =>
          rcases List.mem_cons.mp he0 with rfl | he0
          · rw [hmr] at hmr0
            cases hmr0
          · exact ihok les2 rfl e0 he0 hmr0
    | none =>
      simp only [hmr] at h
      cases hmsg : get_msg_title_description e.commit.message with
      | error err =>
        rw [hmsg] at h
        cases h
        constructor
        · intro ev hev
          cases hev
        · intro les hles
          cases hles
      | ok td =>
        simp only [hmsg] at h
        rcases haux : createStage rest
            (server ++ [⟨maxIid server + 1, e.source_branch, e.target_branch,
              td.1, td.2, none⟩]) with ⟨s2, evs2, r2⟩
        rw [haux] at h
        cases h
        rcases ih _ s2 evs2 r2 haux with ⟨ihev, ihok⟩
        constructor
        · intro ev hev
          rcases List.mem_cons.mp hev with rfl | hev
          · exact ⟨e.source_branch, e.target_branch, td.1, td.2, rfl⟩
          · exact ihev ev hev
        · intro les hles e0 he0 hmr0
          cases r2 with
          | error err => cases hles
          | ok les2 =>
            rcases List.mem_cons.mp he0 with rfl | he0
            · exact ⟨td.1, td.2, List.mem_cons_self _ _⟩
            · rcases ihok les2 rfl e0 he0 hmr0 with ⟨t0, d0, hmem⟩
              exact ⟨t0, d0, List.mem_cons_of_mem _ hmem⟩

set_option maxHeartbeats 1000000 in
/-- Claim C1: in every run of create_merge_requests that reaches the push,
the trace ends with the single batched multi-ref push: every event before it
is a creation or update call and nothing follows it, so the push happens
exactly once, after all request mutations.  Every entry lacking a linked
request gets a creation call before the push, and every affected request
(one whose save issued a PUT) gets its update call before the push. -/
theorem spec_C1 (server : List MRData) (commits : List CommitInfo) (final : Str)
    (hp : ∃ refs, Ev.pushCall refs ∈
      (create_merge_requests server commits final).trace) :
    ∃ A refs,
      (create_merge_requests server commits final).trace
        = A ++ [Ev.pushCall refs]
      ∧ (∀ ev, ev ∈ A →
          (∃ s t ti d, ev = Ev.createCall s t ti d)
          ∨ (∃ i s t ti d, ev = Ev.updateCall i s t ti d))
      ∧ (∀ entries, get_commits_data server commits final = .ok entries →
          ∀ e, e ∈ entries → e.mr = none →
            ∃ t d, Ev.createCall e.source_branch e.target_branch t d ∈ A)
      ∧ (∀ entries les server1 evs1,
          get_commits_data server commits final = .ok entries →
          createStage entries server = (server1, evs1, .ok les) →
          ∀ server2 evs2 outs,
            updateStage les server1 = (server2, evs2, .ok outs) →
            ∀ o, o ∈ outs → o.saved = true →
              Ev.updateCall o.entry.obj.iid o.entry.obj.source_branch
                o.entry.obj.target_branch o.entry.obj.title
                o.entry.obj.description ∈ A) := by
  rcases hp with ⟨refs0, hmem0⟩
  cases hgcd : get_commits_data server commits final with
  | error err =>
    exfalso
    have htr : (create_merge_requests server commits final).trace = [] := by
      simp only [create_merge_requests, hgcd]
    rw [htr] at hmem0
    cases hmem0
  | ok entries =>
    cases hscr : screenTitles entries.reverse with
    | error err =>
      exfalso
      have htr : (create_merge_requests server commits final).trace = [] := by
        simp only [create_merge_requests, hgcd, hscr]
      rw [htr] at hmem0
      cases hmem0
    | ok u =>
      rcases hcs : createStage entries server with ⟨server1, evs1, r1⟩
      cases r1 with
      | error e1 =>
        exfalso
        have htr : (create_merge_requests server commits final).trace = evs1 := by
          simp only [create_merge_requests, hgcd, hscr, hcs]
        rw [htr] at hmem0
        rcases (createStage_spec entries server server1 evs1 (.error e1)
            hcs).1 _ hmem0 with ⟨s, t, ti, d, heq⟩
        cases heq
      | ok les =>
        rcases hus : updateStage les server1 with ⟨server2, evs2, r2⟩
        cases r2 with
        | error e2 =>
          exfalso
          have htr : (create_merge_requests server commits final).trace
              = evs1 ++ evs2 := by
            simp only [create_merge_requests, hgcd, hscr, hcs, hus]
          rw [htr] at hmem0
          rcases List.mem_append.mp hmem0 with h1 | h2
          · rcases (createStage_spec entries server server1 evs1 (.ok les)
                hcs).1 _ h1 with ⟨s, t, ti, d, heq⟩
            cases heq
          · rcases (updateStageAux_spec les les.enum server1 server2 evs2
                (.error e2) hus).1 _ h2 with ⟨i, s, t, ti, d, heq⟩
            cases heq
        | ok outs =>
          refine ⟨evs1 ++ evs2,
            les.map (fun e => (e.commit.sha, e.source_branch)), ?_, ?_, ?_, ?_⟩
          · simp only [create_merge_requests, hgcd, hscr, hcs, hus,
              cancel_prev_pipelines, List.append_assoc]
          · intro ev hev
            rcases List.mem_append.mp hev with h1 | h2
            · exact Or.inl ((createStage_spec entries server server1 evs1
                (.ok les) hcs).1 _ h1)
            · exact Or.inr ((updateStageAux_spec les les.enum server1 server2
                evs2 (.ok outs) hus).1 _ h2)
          · intro entries' hgcd' e he hmre
            cases hgcd'
            rcases (createStage_spec entries server server1 evs1 (.ok les)
                hcs).2 les rfl e he hmre with ⟨t, d, hm⟩
            exact ⟨t, d, List.mem_append_left _ hm⟩
          · intro entries' les' server1' evs1' hgcd' hcs' server2' evs2' outs'
              hus' o ho hsave
            cases hgcd'
            rw [hcs] at hcs'
            cases hcs'
            rw [hus] at hus'
            cases hus'
            rcases List.mem_iff_get?.mp ho with ⟨j, hoj⟩
            rcases updateStageAux_spec les les.enum server1 server2 evs2
              (.ok outs) hus with ⟨_, hok⟩
            rcases hok outs rfl with ⟨hlen, hidx⟩
            have hjlt : j < outs.length := by
              by_contra hge
              rw [List.get?_eq_none.mpr (by omega)] at hoj
              cases hoj
            have hjl : j < les.length := by
              rw [hlen, List.enum_length] at hjlt
              exact hjlt
            cases hej : les.get? j with
            | none =>
              rw [List.get?_eq_none] at hej
              omega
            | some e =>
              have hpj : les.enum.get? j = some (j, e) := by
                rw [get?_enum, hej]
                rfl
              rcases hidx j j e o hpj hoj with
                ⟨t, d, hg, hsv, hupd2, hobj, hnew2, hevm⟩
              have hin := hevm hsave
              rw [hobj]
              exact List.mem_append_right _ hin

/-- Witness for C1: a run with one new commit issues its creation call and
then the single batched push. -/
theorem spec_C1_witness :
    (∃ refs, Ev.pushCall refs ∈
      (create_merge_requests []
        [⟨7, "Add a new file.\n\nChange-Id: Iaaaa".data⟩] "main".data).trace)
    ∧ (∃ A refs,
        (create_merge_requests []
          [⟨7, "Add a new file.\n\nChange-Id: Iaaaa".data⟩] "main".data).trace
          = A ++ [Ev.pushCall refs]
        ∧ (∀ ev, ev ∈ A →
            (∃ s t ti d, ev = Ev.createCall s t ti d)
            ∨ (∃ i s t ti d, ev = Ev.updateCall i s t ti d))
        ∧ (∀ entries, get_commits_data []
              [⟨7, "Add a new file.\n\nChange-Id: Iaaaa".data⟩] "main".data
              = .ok entries →
            ∀ e, e ∈ entries → e.mr = none →
              ∃ t d, Ev.createCall e.source_branch e.target_branch t d ∈ A)
        ∧ (∀ entries les server1 evs1,
            get_commits_data []
              [⟨7, "Add a new file.\n\nChange-Id: Iaaaa".data⟩] "main".data
              = .ok entries →
            createStage entries [] = (server1, evs1, .ok les) →
            ∀ server2 evs2 outs,
              updateStage les server1 = (server2, evs2, .ok outs) →
              ∀ o, o ∈ outs → o.saved = true →
                Ev.updateCall o.entry.obj.iid o.entry.obj.source_branch
                  o.entry.obj.target_branch o.entry.obj.title
                  o.entry.obj.description ∈ A)) :=
  ⟨⟨[(7, "main-aaaa".data)], by decide⟩,
   spec_C1 [] [⟨7, "Add a new file.\n\nChange-Id: Iaaaa".data⟩] "main".data
     ⟨[(7, "main-aaaa".data)], by decide⟩⟩

/-- Claim C3 is violated by the code: get_remote_branch_name derives source
branches of the form "{final}-{change_id[1:5]}" (four characters of the id),
but get_all_merge_requests only admits source branches matching
"{final}-I[0-9a-f]{40}", so no branch this tool creates can ever match and
the request directory is always empty.  The first conjunct proves this
mismatch for every final branch and change id; the rest run the engine twice
on one commit with a well-formed 40-hex-digit change id: the first run leaves
a request with source branch "main-aaaa" on the server, the second run's
directory is nevertheless empty, and the second run issues a creation call
again (new_mrs = [iid 2]) instead of linking and creating nothing, breaking
idempotence (and contradicting unit tests such as test_update_single_mr). -/
theorem spec_C3 :
    (∀ branch cid : Str,
      matchesMRPattern branch (get_remote_branch_name branch cid) = false)
    ∧ (create_merge_requests []
        [⟨7, "Add a new file.\n\nChange-Id: ".data ++
          'I' :: List.replicate 40 'a'⟩] "main".data).server.map
        (fun m => m.source_branch) = ["main-aaaa".data]
    ∧ get_all_merge_requests
        (create_merge_requests []
          [⟨7, "Add a new file.\n\nChange-Id: ".data ++
            'I' :: List.replicate 40 'a'⟩] "main".data).server
        "main".data = []
    ∧ Ev.createCall "main-aaaa".data "main".data "Add a new file.".data
        "\n".data ∈
        (create_merge_requests
          (create_merge_requests []
            [⟨7, "Add a new file.\n\nChange-Id: ".data ++
              'I' :: List.replicate 40 'a'⟩] "main".data).server
          [⟨7, "Add a new file.\n\nChange-Id: ".data ++
            'I' :: List.replicate 40 'a'⟩] "main".data).trace
    ∧ (create_merge_requests
        (create_merge_requests []
          [⟨7, "Add a new file.\n\nChange-Id: ".data ++
            'I' :: List.replicate 40 'a'⟩] "main".data).server
        [⟨7, "Add a new file.\n\nChange-Id: ".data ++
          'I' :: List.replicate 40 'a'⟩] "main".data).new_mrs = [2] := by
  refine ⟨?_, by decide, by decide, by decide, by decide⟩
  intro branch cid
  simp only [matchesMRPattern, get_remote_branch_name]
  set s4 := (cid.drop 1).take 4 with hs4
  have hlen4 : s4.length ≤ 4 := by
    rw [hs4]
    simp [List.length_take]
  have hlen : (branch ++ [ '-' ] ++ s4).length = branch.length + 1 + s4.length := by
    simp only [List.length_append, List.length_cons, List.length_nil]
  have ht : ((branch ++ [ '-' ] ++ s4).drop (branch.length + 2)).length ≤ 3 := by
    rw [List.length_drop]
    omega
  cases hsw : startsWith (branch ++ [ '-', 'I' ]) (branch ++ [ '-' ] ++ s4) with
  | false => simp
  | true =>
    simp only [Bool.true_and]
    have h40 : ((branch ++ [ '-' ] ++ s4).drop (branch.length + 2)).length ≠ 40 := by
      omega
    have h41 : ((branch ++ [ '-' ] ++ s4).drop (branch.length + 2)).length ≠ 41 := by
      omega
    rw [decide_eq_false h40, decide_eq_false h41]
    rfl

/-- Claim C6 is violated by the code: main.cancel_prev_pipelines calls
pipeline.get_pipelines_by_change_id(repo) with a single positional argument,
but that function's signature is (change_id, repo, status=None), so Python
raises TypeError before any pipeline is looked up or cancelled (and even with
the arity fixed, the caller treats the returned list as a dict keyed by
change id).  Concretely, a run that reaches pipeline cancellation aborts with
TypeError and its trace contains no cancellation call, instead of cancelling
every running pipeline sharing the commit's change id except the one at the
commit's own sha. -/
theorem spec_C6 :
    cancel_prev_pipelines [⟨11, "Fix the bug.\n\nChange-Id: ".data ++
        'I' :: List.replicate 40 'b'⟩] = .error .typeError
    ∧ (create_merge_requests []
        [⟨11, "Fix the bug.\n\nChange-Id: ".data ++
          'I' :: List.replicate 40 'b'⟩] "main".data).result
        = .error .typeError
    ∧ (create_merge_requests []
        [⟨11, "Fix the bug.\n\nChange-Id: ".data ++
          'I' :: List.replicate 40 'b'⟩] "main".data).trace.all
        (fun ev => match ev with
          | Ev.cancelCall _ => false
          | _ => true) = true := by
  refine ⟨rfl, by decide, by decide⟩

/-- Claim C7 is violated by the code in its invocation clause: the
stabilization loop itself polls exactly as claimed (the loop returns at the
first refreshed view with a non-empty prepared timestamp and the pushed sha,
and never returns while one of the conditions fails), but in
create_merge_requests the call to cancel_prev_pipelines raises TypeError
right after the push, so wait_until_stable is never invoked: the run's trace
contains the push and no wait call, and the run aborts with TypeError. -/
theorem spec_C7 :
    Ev.pushCall [(11, "main-bbbb".data)] ∈
      (create_merge_requests []
        [⟨11, "Second.\n\nChange-Id: Ibbbb".data⟩] "main".data).trace
    ∧ (create_merge_requests []
        [⟨11, "Second.\n\nChange-Id: Ibbbb".data⟩] "main".data).trace.all
        (fun ev => match ev with
          | Ev.waitCall _ => false
          | _ => true) = true
    ∧ (create_merge_requests []
        [⟨11, "Second.\n\nChange-Id: Ibbbb".data⟩] "main".data).result
        = .error .typeError
    ∧ wait_until_stable
        (fun k => if k < 2 then ⟨none, some 11⟩
          else ⟨some "2024-01-01".data, some 11⟩) 11 10 = some 2
    ∧ stableAt ⟨some "2024-01-01".data, some 11⟩ 11 = true
    ∧ stableAt ⟨none, some 11⟩ 11 = false
    ∧ stableAt ⟨some "2024-01-01".data, some 12⟩ 11 = false
    ∧ wait_until_stable (fun _ => ⟨none, some 11⟩) 11 1000 = none := by
  refine ⟨by decide, by decide, by decide, by decide, by decide, by decide,
    by decide, ?_⟩
  exact wait_loop_none (fun _ => ⟨none, some 11⟩) 11 (fun _ => rfl) 1000 0
